import Mathlib

/-!
Shallow embedding of the Othello engine in hash1khn/othello.

`src/othello.py` codes cells as integers (0 = Empty, 1 = Black, 2 = White),
`src/tempCodeRunnerFile.py` codes occupied cells as the strings "black" and
"white" while keeping the integer 0 for Empty.  Boards are lists of rows;
all bounds tests in the Python code compare against `len(board)` and
`len(board[0])`, which is mirrored here by `rowLen`.  The `while` loops that
walk along a ray are modelled with an explicit fuel argument
(`fuelFor b = height + width + 1`), which is proved sufficient for the eight
unit directions the program uses.  Python's negative-index wrap-around on
writes (`board[-1]`) is modelled by `pyIdx`.
-/

namespace Othello

abbrev Board := List (List Nat)

/-- Python `len(board[0])`: the length of the first row (0 for an empty board). -/
def rowLen (b : Board) : Nat := (b.headD []).length

/-- The bounds test `0 <= r < len(board) and 0 <= c < len(board[0])`. -/
def inB (b : Board) (r c : Int) : Bool :=
  decide (0 ≤ r) && decide (r < (b.length : Int)) &&
  decide (0 ≤ c) && decide (c < ((rowLen b : Nat) : Int))

/-- Python `board[r][c]` for an in-bounds read (out-of-range reads default to 0;
they only occur under an `inB` guard, matching the Python guards). -/
def cellAt (b : Board) (r c : Int) : Nat := (b.getD r.toNat []).getD c.toNat 0

/-- Python `opposite_color = 2 if color == 1 else 1`. -/
def opponent (color : Nat) : Nat := if color = 1 then 2 else 1

/-- The eight direction offsets, in the `for dr in [-1,0,1]: for dc in ...`
order with `(0,0)` skipped. -/
def dirs : List (Int × Int) :=
  [(-1, -1), (-1, 0), (-1, 1), (0, -1), (0, 1), (1, -1), (1, 0), (1, 1)]

/-- Fuel that bounds every ray walk on board `b`. -/
def fuelFor (b : Board) : Nat := b.length + rowLen b + 1

/-- The inner `while` of `is_valid_move`: starting at `(r, c)` and stepping
by `(dr, dc)`, break (False) on Empty or on leaving the board, return True
on the mover's color, otherwise keep walking. -/
def scanDir (b : Board) (color : Nat) (dr dc : Int) : Int → Int → Nat → Bool
  | _, _, 0 => false
  | r, c, Nat.succ fuel =>
    if inB b r c then
      if cellAt b r c = 0 then false
      else if cellAt b r c = color then true
      else scanDir b color dr dc (r + dr) (c + dc) fuel
    else false

/-- Python `has_opposite_neighbor`: some one of the eight neighbours is in bounds
and holds the opposite color. -/
def hasOppNeighbor (b : Board) (row col : Int) (color : Nat) : Bool :=
  dirs.any fun d =>
    inB b (row + d.1) (col + d.2) &&
    decide (cellAt b (row + d.1) (col + d.2) = opponent color)

/-- Python `is_valid_move(board, row, col, color)` from src/othello.py. -/
def is_valid_move (b : Board) (row col : Int) (color : Nat) : Bool :=
  if cellAt b row col ≠ 0 then false
  else if hasOppNeighbor b row col color then
    dirs.any fun d => scanDir b color d.1 d.2 (row + d.1) (col + d.2) (fuelFor b)
  else false

/-- Python `get_valid_moves`: row-major scan of the whole board. -/
def get_valid_moves (b : Board) (color : Nat) : List (Int × Int) :=
  (List.range b.length).flatMap fun r =>
    (List.range (rowLen b)).flatMap fun c =>
      if is_valid_move b (r : Int) (c : Int) color then [((r : Int), (c : Int))] else []

/-- Python `select_next_play_random`: `random.choice(valid_moves)`.  The random
draw is modelled by the extra index `k`; `random.choice` raises on an empty
sequence, modelled by `none`. -/
def select_next_play_random (b : Board) (color : Nat) (k : Nat) : Option (Int × Int) :=
  let vm := get_valid_moves b color
  vm.get? (k % vm.length)

/-- The `while` of `count_flips`: walk while in bounds and on the opponent's
color, counting steps; returns the final position and count. -/
def cfLoop (b : Board) (opp : Nat) (dr dc : Int) : Int → Int → Nat → Nat → Int × Int × Nat
  | r, c, flips, 0 => (r, c, flips)
  | r, c, flips, Nat.succ fuel =>
    if inB b r c && decide (cellAt b r c = opp) then
      cfLoop b opp dr dc (r + dr) (c + dc) (flips + 1) fuel
    else (r, c, flips)

/-- Python `count_flips(board, row, col, color, dr, dc)` from src/othello.py. -/
def count_flips (b : Board) (row col : Int) (color : Nat) (dr dc : Int) : Nat :=
  let res := cfLoop b (opponent color) dr dc (row + dr) (col + dc) 0 (fuelFor b)
  if inB b res.1 res.2.1 && decide (cellAt b res.1 res.2.1 = color) then res.2.2 else 0

/-- Python `evaluate_move`: −1 on an occupied target, else the total flip count
over the eight directions. -/
def evaluate_move (b : Board) (row col : Int) (color : Nat) : Int :=
  if cellAt b row col ≠ 0 then -1
  else ((dirs.map fun d => count_flips b row col color d.1 d.2).sum : Nat)

/-- The accumulator loop of `select_next_play_ai` over the move list,
carrying `best_move` and `best_score`. -/
def selLoop (b : Board) (color : Nat) : List (Int × Int) → (Int × Int) → Int → (Int × Int)
  | [], best, _ => best
  | m :: ms, best, bs =>
    if evaluate_move b m.1 m.2 color > bs then
      selLoop b color ms m (evaluate_move b m.1 m.2 color)
    else selLoop b color ms best bs

/-- Python `select_next_play_ai`: start from `valid_moves[0]` and `best_score = -1`
(`valid_moves[0]` raises IndexError on an empty list, modelled by `none`). -/
def select_next_play_ai (b : Board) (color : Nat) : Option (Int × Int) :=
  match get_valid_moves b color with
  | [] => none
  | m :: ms => some (selLoop b color (m :: ms) m (-1))

/-- Python list indexing on writes: a negative index `i` addresses
`len + i`. -/
def pyIdx (len : Nat) (i : Int) : Nat := (if i < 0 then i + len else i).toNat

/-- Python `row[c] = v` with Python index semantics. -/
def pySetRow (row : List Nat) (c : Int) (v : Nat) : List Nat :=
  row.set (pyIdx row.length c) v

/-- Python `board[r][c] = v` with Python index semantics. -/
def pySet (b : Board) (r c : Int) (v : Nat) : Board :=
  let i := pyIdx b.length r
  b.set i (pySetRow (b.getD i []) c v)

/-- Python `set_up_board(width, height)` from src/othello.py: zero board, then the
four centre writes `board[cr][cc]=2; board[cr-1][cc-1]=2; board[cr][cc-1]=1;
board[cr-1][cc]=1`. -/
def set_up_board (width height : Nat) : Board :=
  let board : Board := List.replicate height (List.replicate width 0)
  let cr : Int := (height / 2 : Nat)
  let cc : Int := (width / 2 : Nat)
  pySet (pySet (pySet (pySet board cr cc 2) (cr - 1) (cc - 1) 2) cr (cc - 1) 1) (cr - 1) cc 1

/-- Applying a chosen move, as the game loops do at
`board[row][col] = current_player` (src/othello.py lines 281-283, 318-320):
the target cell is set to the mover's color and nothing else changes. -/
def apply_move (b : Board) (row col : Int) (color : Nat) : Board :=
  pySet b row col color

/-- Number of occupied (non-Empty) cells of a board. -/
def pieceCount (b : Board) : Nat := (b.map fun row => row.countP fun x => x != 0).sum

/-!
The string-coded variant, src/tempCodeRunnerFile.py.  Its rule functions
compare cells against the Python values `0`, `"black"` and `"white"`; on
that three-value domain Python equality is captured by `SVal` with its
decidable equality.
-/

/-- A cell value of the string-coded variant: the int `0`, the string
`"black"`, or the string `"white"`. -/
inductive SVal where
  | intZero : SVal
  | black : SVal
  | white : SVal
deriving DecidableEq

abbrev SBoard := List (List SVal)

def rowLenS (b : SBoard) : Nat := (b.headD []).length

def inBS (b : SBoard) (r c : Int) : Bool :=
  decide (0 ≤ r) && decide (r < (b.length : Int)) &&
  decide (0 ≤ c) && decide (c < ((rowLenS b : Nat) : Int))

def cellAtS (b : SBoard) (r c : Int) : SVal := (b.getD r.toNat []).getD c.toNat SVal.intZero

/-- Python `opposite_color = "white" if color == "black" else "black"`. -/
def opponentS (color : SVal) : SVal := if color = SVal.black then SVal.white else SVal.black

def fuelForS (b : SBoard) : Nat := b.length + rowLenS b + 1

def scanDirS (b : SBoard) (color : SVal) (dr dc : Int) : Int → Int → Nat → Bool
  | _, _, 0 => false
  | r, c, Nat.succ fuel =>
    if inBS b r c then
      if cellAtS b r c = SVal.intZero then false
      else if cellAtS b r c = color then true
      else scanDirS b color dr dc (r + dr) (c + dc) fuel
    else false

def hasOppNeighborS (b : SBoard) (row col : Int) (color : SVal) : Bool :=
  dirs.any fun d =>
    inBS b (row + d.1) (col + d.2) &&
    decide (cellAtS b (row + d.1) (col + d.2) = opponentS color)

/-- Python `is_valid_move` from src/tempCodeRunnerFile.py. -/
def is_valid_moveS (b : SBoard) (row col : Int) (color : SVal) : Bool :=
  if cellAtS b row col ≠ SVal.intZero then false
  else if hasOppNeighborS b row col color then
    dirs.any fun d => scanDirS b color d.1 d.2 (row + d.1) (col + d.2) (fuelForS b)
  else false

def get_valid_movesS (b : SBoard) (color : SVal) : List (Int × Int) :=
  (List.range b.length).flatMap fun r =>
    (List.range (rowLenS b)).flatMap fun c =>
      if is_valid_moveS b (r : Int) (c : Int) color then [((r : Int), (c : Int))] else []

def cfLoopS (b : SBoard) (opp : SVal) (dr dc : Int) : Int → Int → Nat → Nat → Int × Int × Nat
  | r, c, flips, 0 => (r, c, flips)
  | r, c, flips, Nat.succ fuel =>
    if inBS b r c && decide (cellAtS b r c = opp) then
      cfLoopS b opp dr dc (r + dr) (c + dc) (flips + 1) fuel
    else (r, c, flips)

/-- Python `count_flips` from src/tempCodeRunnerFile.py. -/
def count_flipsS (b : SBoard) (row col : Int) (color : SVal) (dr dc : Int) : Nat :=
  let res := cfLoopS b (opponentS color) dr dc (row + dr) (col + dc) 0 (fuelForS b)
  if inBS b res.1 res.2.1 && decide (cellAtS b res.1 res.2.1 = color) then res.2.2 else 0

/-- Python `evaluate_move` from src/tempCodeRunnerFile.py. -/
def evaluate_moveS (b : SBoard) (row col : Int) (color : SVal) : Int :=
  if cellAtS b row col ≠ SVal.intZero then -1
  else ((dirs.map fun d => count_flipsS b row col color d.1 d.2).sum : Nat)

def selLoopS (b : SBoard) (color : SVal) : List (Int × Int) → (Int × Int) → Int → (Int × Int)
  | [], best, _ => best
  | m :: ms, best, bs =>
    if evaluate_moveS b m.1 m.2 color > bs then
      selLoopS b color ms m (evaluate_moveS b m.1 m.2 color)
    else selLoopS b color ms best bs

/-- Python `select_next_play_ai` from src/tempCodeRunnerFile.py. -/
def select_next_play_aiS (b : SBoard) (color : SVal) : Option (Int × Int) :=
  match get_valid_movesS b color with
  | [] => none
  | m :: ms => some (selLoopS b color (m :: ms) m (-1))

/-- The translation 0 ↦ 0, 1 ↦ "black", 2 ↦ "white" of cell values. -/
def toS (n : Nat) : SVal :=
  if n = 1 then SVal.black else if n = 2 then SVal.white else SVal.intZero

/-- Translate a whole integer-coded board to the string coding. -/
def mapS (b : Board) : SBoard := b.map fun row => row.map toS

/-- A 3×3 board exercising the legality scan: Black to play at (0,0);
east neighbour (0,1) is Black itself, south neighbour (1,0) is a White run
that ends on an Empty cell, so no direction flips anything. -/
def cexBoard : Board := [[0, 1, 0], [2, 0, 0], [0, 0, 0]]

end Othello

namespace Othello

/-- Unfolding of the bounds test. -/
lemma inB_iff (b : Board) (r c : Int) :
    inB b r c = true ↔
      0 ≤ r ∧ r < (b.length : Int) ∧ 0 ≤ c ∧ c < ((rowLen b : Nat) : Int) := by
  simp [inB, and_assoc]

lemma inB_false_iff (b : Board) (r c : Int) :
    inB b r c = false ↔
      ¬(0 ≤ r ∧ r < (b.length : Int) ∧ 0 ≤ c ∧ c < ((rowLen b : Nat) : Int)) := by
  rw [← inB_iff]
  simp

/-- Along a unit direction, some step within `L` lands outside `[0, L)`. -/
lemma exit_coord (L : Nat) (s x : Int) (hs : s = 1 ∨ s = -1) :
    ∃ m : Nat, m ≤ L ∧ ¬(0 ≤ x + (m : Int) * s ∧ x + (m : Int) * s < (L : Int)) := by
  rcases hs with rfl | rfl
  · by_cases hx : 0 ≤ x
    · exact ⟨L, Nat.le_refl L, by omega⟩
    · exact ⟨0, Nat.zero_le L, by omega⟩
  · by_cases hx : x < (L : Int)
    · exact ⟨L, Nat.le_refl L, by omega⟩
    · exact ⟨0, Nat.zero_le L, by omega⟩

/-- For each of the eight directions, every ray leaves the board within
`fuelFor b` steps. -/
lemma exists_exit (b : Board) (dr dc : Int) (hd : (dr, dc) ∈ dirs) (r c : Int) :
    ∃ m : Nat, m ≤ fuelFor b ∧
      inB b (r + (m : Int) * dr) (c + (m : Int) * dc) = false := by
  have hcase : dr = 1 ∨ dr = -1 ∨ (dr = 0 ∧ (dc = 1 ∨ dc = -1)) := by
    simp only [dirs, List.mem_cons, List.not_mem_nil, or_false, Prod.mk.injEq] at hd
    rcases hd with ⟨h1, h2⟩ | ⟨h1, h2⟩ | ⟨h1, h2⟩ | ⟨h1, h2⟩ | ⟨h1, h2⟩ | ⟨h1, h2⟩ |
      ⟨h1, h2⟩ | ⟨h1, h2⟩ <;> subst h1 <;> subst h2 <;> simp
  rcases hcase with hs | hs | ⟨h0, hs⟩
  · obtain ⟨m, hm, hv⟩ := exit_coord b.length dr r (Or.inl hs)
    refine ⟨m, by simp [fuelFor]; omega, ?_⟩
    rw [inB_false_iff]
    intro h
    exact hv ⟨h.1, h.2.1⟩
  · obtain ⟨m, hm, hv⟩ := exit_coord b.length dr r (Or.inr hs)
    refine ⟨m, by simp [fuelFor]; omega, ?_⟩
    rw [inB_false_iff]
    intro h
    exact hv ⟨h.1, h.2.1⟩
  · obtain ⟨m, hm, hv⟩ := exit_coord (rowLen b) dc c hs
    refine ⟨m, by simp [fuelFor]; omega, ?_⟩
    rw [inB_false_iff]
    intro h
    exact hv ⟨h.2.2.1, h.2.2.2⟩

/-- Rebasing a ray position by one step. -/
lemma step_shift (r dr : Int) (k : Nat) :
    r + dr + (k : Int) * dr = r + ((k + 1 : Nat) : Int) * dr := by
  push_cast
  ring

/-- Full characterization of the `count_flips` while-loop: it walks `k`
steps through in-bounds cells equal to `opp`, stops at the first position
failing that, and adds `k` to the accumulator — provided some step within
the fuel leaves the board. -/
lemma cfLoop_spec (b : Board) (opp : Nat) (dr dc : Int) :
    ∀ (fuel : Nat) (r c : Int) (flips : Nat),
      (∃ m : Nat, m ≤ fuel ∧ inB b (r + (m : Int) * dr) (c + (m : Int) * dc) = false) →
      ∃ k : Nat,
        cfLoop b opp dr dc r c flips fuel =
          (r + (k : Int) * dr, c + (k : Int) * dc, flips + k) ∧
        (∀ i : Nat, i < k →
          inB b (r + (i : Int) * dr) (c + (i : Int) * dc) = true ∧
          cellAt b (r + (i : Int) * dr) (c + (i : Int) * dc) = opp) ∧
        ¬(inB b (r + (k : Int) * dr) (c + (k : Int) * dc) = true ∧
          cellAt b (r + (k : Int) * dr) (c + (k : Int) * dc) = opp) := by
  intro fuel
  induction fuel with
  | zero =>
    rintro r c flips ⟨m, hm, hex⟩
    have hm0 : m = 0 := Nat.le_zero.mp hm
    subst hm0
    refine ⟨0, by simp [cfLoop], fun i hi => absurd hi (Nat.not_lt_zero i), ?_⟩
    rintro ⟨h1, _⟩
    rw [h1] at hex
    exact Bool.noConfusion hex
  | succ fuel ih =>
    rintro r c flips ⟨m, hm, hex⟩
    by_cases hc0 : (inB b r c && decide (cellAt b r c = opp)) = true
    · rw [Bool.and_eq_true, decide_eq_true_eq] at hc0
      obtain ⟨hin, hcell⟩ := hc0
      have hm0 : m ≠ 0 := by
        rintro rfl
        simp only [Nat.cast_zero, zero_mul, add_zero] at hex
        rw [hin] at hex
        exact Bool.noConfusion hex
      obtain ⟨m', rfl⟩ : ∃ m', m = m' + 1 := ⟨m - 1, by omega⟩
      have hex' : inB b (r + dr + (m' : Int) * dr) (c + dc + (m' : Int) * dc) = false := by
        rw [step_shift, step_shift]
        exact hex
      obtain ⟨k, hres, hrun, hstop⟩ := ih (r + dr) (c + dc) (flips + 1) ⟨m', by omega, hex'⟩
      refine ⟨k + 1, ?_, ?_, ?_⟩
      · have hunf : cfLoop b opp dr dc r c flips (fuel + 1) =
            cfLoop b opp dr dc (r + dr) (c + dc) (flips + 1) fuel := by
          simp only [cfLoop]
          rw [if_pos]
          rw [Bool.and_eq_true, decide_eq_true_eq]
          exact ⟨hin, hcell⟩
        rw [hunf, hres, step_shift, step_shift]
        have : flips + 1 + k = flips + (k + 1) := by omega
        rw [this]
      · intro i hi
        match i with
        | 0 => simpa using ⟨hin, hcell⟩
        | j + 1 =>
          have := hrun j (by omega)
          rwa [step_shift, step_shift] at this
      · have := hstop
        rwa [step_shift, step_shift] at this
    · refine ⟨0, ?_, fun i hi => absurd hi (Nat.not_lt_zero i), ?_⟩
      · simp only [cfLoop]
        rw [if_neg hc0]
        simp
      · rintro ⟨h1, h2⟩
        simp only [Nat.cast_zero, zero_mul, add_zero] at h1 h2
        exact hc0 (by rw [Bool.and_eq_true, decide_eq_true_eq]; exact ⟨h1, h2⟩)

/-- Characterization of `count_flips`: there is a walk length `n` through
opposite-colored in-bounds cells, the cell after the walk is not such a
cell, and the result is `n` exactly when that stopping cell is in bounds
and the mover's own color, else 0. -/
lemma count_flips_run (b : Board) (row col : Int) (color : Nat) (dr dc : Int)
    (hd : (dr, dc) ∈ dirs) :
    ∃ n : Nat,
      (∀ i : Nat, 1 ≤ i → i ≤ n →
        inB b (row + (i : Int) * dr) (col + (i : Int) * dc) = true ∧
        cellAt b (row + (i : Int) * dr) (col + (i : Int) * dc) = opponent color) ∧
      ¬(inB b (row + ((n + 1 : Nat) : Int) * dr) (col + ((n + 1 : Nat) : Int) * dc) = true ∧
        cellAt b (row + ((n + 1 : Nat) : Int) * dr) (col + ((n + 1 : Nat) : Int) * dc) =
          opponent color) ∧
      count_flips b row col color dr dc =
        if inB b (row + ((n + 1 : Nat) : Int) * dr) (col + ((n + 1 : Nat) : Int) * dc) = true ∧
            cellAt b (row + ((n + 1 : Nat) : Int) * dr) (col + ((n + 1 : Nat) : Int) * dc) =
              color
        then n else 0 := by
  obtain ⟨m, hm, hex⟩ := exists_exit b dr dc hd (row + dr) (col + dc)
  obtain ⟨k, hres, hrun, hstop⟩ :=
    cfLoop_spec b (opponent color) dr dc (fuelFor b) (row + dr) (col + dc) 0 ⟨m, hm, hex⟩
  refine ⟨k, ?_, ?_, ?_⟩
  · intro i h1 h2
    obtain ⟨j, rfl⟩ : ∃ j, i = j + 1 := ⟨i - 1, by omega⟩
    have := hrun j (by omega)
    rwa [step_shift, step_shift] at this
  · have := hstop
    rwa [step_shift, step_shift] at this
  · show (if (inB b (cfLoop b (opponent color) dr dc (row + dr) (col + dc) 0 (fuelFor b)).1
        (cfLoop b (opponent color) dr dc (row + dr) (col + dc) 0 (fuelFor b)).2.1 &&
        decide (cellAt b (cfLoop b (opponent color) dr dc (row + dr) (col + dc) 0
          (fuelFor b)).1
          (cfLoop b (opponent color) dr dc (row + dr) (col + dc) 0 (fuelFor b)).2.1 = color))
        = true
      then (cfLoop b (opponent color) dr dc (row + dr) (col + dc) 0 (fuelFor b)).2.2 else 0) = _
    rw [hres]
    simp only
    rw [step_shift, step_shift]
    by_cases hcond :
        inB b (row + ((k + 1 : Nat) : Int) * dr) (col + ((k + 1 : Nat) : Int) * dc) = true ∧
        cellAt b (row + ((k + 1 : Nat) : Int) * dr) (col + ((k + 1 : Nat) : Int) * dc) = color
    · rw [if_pos hcond, if_pos]
      · omega
      · rw [Bool.and_eq_true, decide_eq_true_eq]
        exact hcond
    · rw [if_neg hcond, if_neg]
      intro hbool
      rw [Bool.and_eq_true, decide_eq_true_eq] at hbool
      exact hcond hbool

/-- C5: `count_flips` walks outward from (row, col) along (dr, dc) while
cells are opposite-colored, counting them (`n` below); it returns that
count exactly when the stopping cell is on the board and holds the mover's
own color, and 0 in every other case — never a partial count. -/
theorem c5_count_flips_walk (b : Board) (row col : Int) (color : Nat) (dr dc : Int)
    (hd : (dr, dc) ∈ dirs) :
    ∃ n : Nat,
      (∀ i : Nat, 1 ≤ i → i ≤ n →
        inB b (row + (i : Int) * dr) (col + (i : Int) * dc) = true ∧
        cellAt b (row + (i : Int) * dr) (col + (i : Int) * dc) = opponent color) ∧
      ¬(inB b (row + ((n + 1 : Nat) : Int) * dr) (col + ((n + 1 : Nat) : Int) * dc) = true ∧
        cellAt b (row + ((n + 1 : Nat) : Int) * dr) (col + ((n + 1 : Nat) : Int) * dc) =
          opponent color) ∧
      count_flips b row col color dr dc =
        if inB b (row + ((n + 1 : Nat) : Int) * dr) (col + ((n + 1 : Nat) : Int) * dc) = true ∧
            cellAt b (row + ((n + 1 : Nat) : Int) * dr) (col + ((n + 1 : Nat) : Int) * dc) =
              color
        then n else 0 :=
  count_flips_run b row col color dr dc hd

/-- Witness for C5: the characterization instantiated on the fresh 8×8
board at Black's move (2,3), direction south. -/
theorem c5_count_flips_walk_witness :
    ∃ n : Nat,
      (∀ i : Nat, 1 ≤ i → i ≤ n →
        inB (set_up_board 8 8) (2 + (i : Int) * 1) (3 + (i : Int) * 0) = true ∧
        cellAt (set_up_board 8 8) (2 + (i : Int) * 1) (3 + (i : Int) * 0) = opponent 1) ∧
      ¬(inB (set_up_board 8 8) (2 + ((n + 1 : Nat) : Int) * 1)
          (3 + ((n + 1 : Nat) : Int) * 0) = true ∧
        cellAt (set_up_board 8 8) (2 + ((n + 1 : Nat) : Int) * 1)
          (3 + ((n + 1 : Nat) : Int) * 0) = opponent 1) ∧
      count_flips (set_up_board 8 8) 2 3 1 1 0 =
        if inB (set_up_board 8 8) (2 + ((n + 1 : Nat) : Int) * 1)
            (3 + ((n + 1 : Nat) : Int) * 0) = true ∧
            cellAt (set_up_board 8 8) (2 + ((n + 1 : Nat) : Int) * 1)
              (3 + ((n + 1 : Nat) : Int) * 0) = 1
        then n else 0 :=
  c5_count_flips_walk (set_up_board 8 8) 2 3 1 1 0 (by decide)

lemma opponent_ne_self (color : Nat) : opponent color ≠ color := by
  unfold opponent
  split <;> omega

lemma opponent_ne_zero (color : Nat) : opponent color ≠ 0 := by
  unfold opponent
  split <;> omega

/-- Every direction of `dirs` is a unit step: either vertical or, if not,
purely horizontal. -/
lemma dirs_cases (dr dc : Int) (hd : (dr, dc) ∈ dirs) :
    dr = 1 ∨ dr = -1 ∨ (dr = 0 ∧ (dc = 1 ∨ dc = -1)) := by
  simp only [dirs, List.mem_cons, List.not_mem_nil, or_false, Prod.mk.injEq] at hd
  rcases hd with ⟨h1, h2⟩ | ⟨h1, h2⟩ | ⟨h1, h2⟩ | ⟨h1, h2⟩ | ⟨h1, h2⟩ | ⟨h1, h2⟩ |
    ⟨h1, h2⟩ | ⟨h1, h2⟩ <;> subst h1 <;> subst h2 <;> simp

/-- A run of in-bounds coordinates along a unit step is no longer than the
board extent in that coordinate. -/
lemma run_bound_coord (L : Nat) (s x : Int) (hs : s = 1 ∨ s = -1) (k : Nat)
    (hrun : ∀ i : Nat, i < k → 0 ≤ x + (i : Int) * s ∧ x + (i : Int) * s < (L : Int)) :
    k ≤ L := by
  rcases Nat.eq_zero_or_pos k with rfl | hk
  · exact Nat.zero_le L
  · have h0 := hrun 0 (by omega)
    have hl := hrun (k - 1) (by omega)
    rcases hs with rfl | rfl <;>
      simp only [Nat.cast_zero, zero_mul, add_zero] at h0 <;> omega

/-- A run of in-bounds positions along one of the eight directions is no
longer than height + width. -/
lemma run_bound (b : Board) (dr dc : Int) (hd : (dr, dc) ∈ dirs) (r c : Int) (k : Nat)
    (hrun : ∀ i : Nat, i < k → inB b (r + (i : Int) * dr) (c + (i : Int) * dc) = true) :
    k ≤ b.length + rowLen b := by
  rcases dirs_cases dr dc hd with hs | hs | ⟨h0, hs⟩
  · have : k ≤ b.length := by
      apply run_bound_coord b.length dr r (Or.inl hs)
      intro i hi
      have := (inB_iff _ _ _).mp (hrun i hi)
      exact ⟨this.1, this.2.1⟩
    omega
  · have : k ≤ b.length := by
      apply run_bound_coord b.length dr r (Or.inr hs)
      intro i hi
      have := (inB_iff _ _ _).mp (hrun i hi)
      exact ⟨this.1, this.2.1⟩
    omega
  · have : k ≤ rowLen b := by
      apply run_bound_coord (rowLen b) dc c hs
      intro i hi
      have := (inB_iff _ _ _).mp (hrun i hi)
      exact ⟨this.2.2.1, this.2.2.2⟩
    omega

/-- If, walking from (r, c), the first `n` cells are in bounds and neither
Empty nor the mover's color, and the cell at step `n` is in bounds with the
mover's (non-Empty) color, the line scan succeeds given fuel above `n`. -/
lemma scanDir_true_of_run (b : Board) (color : Nat) (dr dc : Int) (hc0 : color ≠ 0) :
    ∀ (n : Nat) (r c : Int) (fuel : Nat), n < fuel →
      (∀ i : Nat, i < n →
        inB b (r + (i : Int) * dr) (c + (i : Int) * dc) = true ∧
        cellAt b (r + (i : Int) * dr) (c + (i : Int) * dc) = opponent color) →
      inB b (r + (n : Int) * dr) (c + (n : Int) * dc) = true →
      cellAt b (r + (n : Int) * dr) (c + (n : Int) * dc) = color →
      scanDir b color dr dc r c fuel = true := by
  intro n
  induction n with
  | zero =>
    intro r c fuel hf _ hin hcell
    obtain ⟨f, rfl⟩ : ∃ f, fuel = f + 1 := ⟨fuel - 1, by omega⟩
    simp only [Nat.cast_zero, zero_mul, add_zero] at hin hcell
    have hne0 : ¬(cellAt b r c = 0) := by
      rw [hcell]
      exact hc0
    simp only [scanDir]
    rw [if_pos hin, if_neg hne0, if_pos hcell]
  | succ j ih =>
    intro r c fuel hf hrun hin hcell
    obtain ⟨f, rfl⟩ : ∃ f, fuel = f + 1 := ⟨fuel - 1, by omega⟩
    have h0 := hrun 0 (by omega)
    simp only [Nat.cast_zero, zero_mul, add_zero] at h0
    have hne0 : ¬(cellAt b r c = 0) := by
      rw [h0.2]
      exact opponent_ne_zero color
    have hnec : ¬(cellAt b r c = color) := by
      rw [h0.2]
      exact opponent_ne_self color
    simp only [scanDir]
    rw [if_pos h0.1, if_neg hne0, if_neg hnec]
    apply ih (r + dr) (c + dc) f (by omega)
    · intro i hi
      have := hrun (i + 1) (by omega)
      rwa [← step_shift, ← step_shift] at this
    · rwa [← step_shift, ← step_shift] at hin
    · rwa [← step_shift, ← step_shift] at hcell

/-- A positive move evaluation names a direction with a positive flip
count. -/
lemma eval_pos_dir (b : Board) (row col : Int) (color : Nat)
    (hemp : cellAt b row col = 0) (hpos : evaluate_move b row col color > 0) :
    ∃ d ∈ dirs, 0 < count_flips b row col color d.1 d.2 := by
  unfold evaluate_move at hpos
  rw [if_neg (by simp [hemp])] at hpos
  by_contra h
  push_neg at h
  have hz : (dirs.map fun d => count_flips b row col color d.1 d.2).sum = 0 := by
    apply List.sum_eq_zero
    intro x hx
    obtain ⟨d, hd, rfl⟩ := List.mem_map.mp hx
    have := h d hd
    omega
  rw [hz] at hpos
  exact absurd hpos (by norm_num)

/-- C4 amended: on any board with colors 1 or 2, a positive
`evaluate_move` score implies `is_valid_move` accepts the move; the
converse direction of the claimed equivalence is refuted by
`c4_valid_but_zero_score`. -/
theorem c4_eval_pos_implies_valid (b : Board) (row col : Int) (color : Nat)
    (hc : color = 1 ∨ color = 2) (hin : inB b row col = true)
    (hpos : evaluate_move b row col color > 0) :
    is_valid_move b row col color = true := by
  have hemp : cellAt b row col = 0 := by
    by_contra h
    unfold evaluate_move at hpos
    rw [if_pos h] at hpos
    exact absurd hpos (by norm_num)
  obtain ⟨d, hd, hcf⟩ := eval_pos_dir b row col color hemp hpos
  obtain ⟨n, hrun, hstop, hres⟩ := count_flips_run b row col color d.1 d.2 hd
  have hcond : inB b (row + ((n + 1 : Nat) : Int) * d.1) (col + ((n + 1 : Nat) : Int) * d.2)
        = true ∧
      cellAt b (row + ((n + 1 : Nat) : Int) * d.1) (col + ((n + 1 : Nat) : Int) * d.2)
        = color := by
    by_contra hcnd
    rw [if_neg hcnd] at hres
    omega
  rw [if_pos hcond] at hres
  have hn : 0 < n := by omega
  have hrun1 := hrun 1 (by omega) (by omega)
  have hc0 : color ≠ 0 := by omega
  unfold is_valid_move
  rw [if_neg (by simp [hemp]), if_pos]
  · rw [List.any_eq_true]
    refine ⟨d, hd, ?_⟩
    apply scanDir_true_of_run b color d.1 d.2 hc0 n (row + d.1) (col + d.2) (fuelFor b)
    · have hb : n ≤ b.length + rowLen b := by
        apply run_bound b d.1 d.2 hd (row + d.1) (col + d.2) n
        intro i hi
        rw [step_shift, step_shift]
        exact (hrun (i + 1) (by omega) (by omega)).1
      unfold fuelFor
      omega
    · intro i hi
      rw [step_shift, step_shift]
      exact hrun (i + 1) (by omega) (by omega)
    · rw [step_shift, step_shift]
      exact hcond.1
    · rw [step_shift, step_shift]
      exact hcond.2
  · unfold hasOppNeighbor
    rw [List.any_eq_true]
    refine ⟨d, hd, ?_⟩
    rw [Bool.and_eq_true, decide_eq_true_eq]
    have h1 := hrun1
    rw [show ((1 : Nat) : Int) = 1 by norm_num, one_mul, one_mul] at h1
    exact h1

/-- Witness for the amended C4 at a concrete input: Black's legal move
(2,3) on the fresh board has positive score, and the implication applies. -/
theorem c4_eval_pos_implies_valid_witness :
    inB (set_up_board 8 8) 2 3 = true ∧
    evaluate_move (set_up_board 8 8) 2 3 1 > 0 ∧
    is_valid_move (set_up_board 8 8) 2 3 1 = true :=
  ⟨by decide, by decide,
    c4_eval_pos_implies_valid (set_up_board 8 8) 2 3 1 (by decide) (by decide) (by decide)⟩

/-- Membership in `get_valid_moves` means `is_valid_move` accepts it. -/
lemma mem_gvm_valid (b : Board) (color : Nat) (m : Int × Int)
    (hm : m ∈ get_valid_moves b color) : is_valid_move b m.1 m.2 color = true := by
  unfold get_valid_moves at hm
  rw [List.mem_flatMap] at hm
  obtain ⟨r, _, hm⟩ := hm
  rw [List.mem_flatMap] at hm
  obtain ⟨c, _, hm⟩ := hm
  by_cases hv : is_valid_move b (r : Int) (c : Int) color = true
  · rw [if_pos hv] at hm
    simp only [List.mem_singleton] at hm
    subst hm
    exact hv
  · rw [if_neg hv] at hm
    exact absurd hm (List.not_mem_nil _)

/-- A move accepted by `is_valid_move` targets an Empty cell. -/
lemma valid_cell_empty (b : Board) (row col : Int) (color : Nat)
    (h : is_valid_move b row col color = true) : cellAt b row col = 0 := by
  by_contra hne
  unfold is_valid_move at h
  rw [if_pos hne] at h
  exact Bool.noConfusion h

/-- On an Empty target the evaluation is a sum of flip counts, hence
non-negative. -/
lemma eval_nonneg (b : Board) (row col : Int) (color : Nat)
    (hemp : cellAt b row col = 0) : 0 ≤ evaluate_move b row col color := by
  unfold evaluate_move
  rw [if_neg (by simp [hemp])]
  exact Int.natCast_nonneg _

/-- Full characterization of `select_next_play_ai`'s accumulator loop:
either nothing beats the running score and the running best survives, or
the result is the first list element attaining the (strictly improving)
maximal score. -/
lemma selLoop_spec (b : Board) (color : Nat) :
    ∀ (l : List (Int × Int)) (best : Int × Int) (bs : Int),
      ((∀ m ∈ l, evaluate_move b m.1 m.2 color ≤ bs) ∧ selLoop b color l best bs = best) ∨
      (∃ i : Nat, ∃ hi : i < l.length,
        selLoop b color l best bs = l.get ⟨i, hi⟩ ∧
        bs < evaluate_move b (l.get ⟨i, hi⟩).1 (l.get ⟨i, hi⟩).2 color ∧
        (∀ j : Nat, ∀ hj : j < l.length,
          evaluate_move b (l.get ⟨j, hj⟩).1 (l.get ⟨j, hj⟩).2 color ≤
            evaluate_move b (l.get ⟨i, hi⟩).1 (l.get ⟨i, hi⟩).2 color) ∧
        (∀ j : Nat, j < i → ∀ hj : j < l.length,
          evaluate_move b (l.get ⟨j, hj⟩).1 (l.get ⟨j, hj⟩).2 color <
            evaluate_move b (l.get ⟨i, hi⟩).1 (l.get ⟨i, hi⟩).2 color)) := by
  intro l
  induction l with
  | nil =>
    intro best bs
    left
    exact ⟨by simp, by simp [selLoop]⟩
  | cons m ms ih =>
    intro best bs
    by_cases hgt : evaluate_move b m.1 m.2 color > bs
    · have hsel : selLoop b color (m :: ms) best bs =
          selLoop b color ms m (evaluate_move b m.1 m.2 color) := by
        simp only [selLoop]
        rw [if_pos hgt]
      rcases ih m (evaluate_move b m.1 m.2 color) with ⟨hall, hres⟩ |
        ⟨i, hi, hres, hbs, hmax, hfirst⟩
      · right
        refine ⟨0, by simp, ?_, hgt, ?_, ?_⟩
        · rw [hsel, hres]
          rfl
        · intro j hj
          match j with
          | 0 => exact le_refl _
          | j + 1 => exact hall _ (List.get_mem ms j _)
        · intro j hj0 hj
          exact absurd hj0 (Nat.not_lt_zero j)
      · right
        refine ⟨i + 1, Nat.succ_lt_succ hi, ?_, lt_trans hgt hbs, ?_, ?_⟩
        · rw [hsel, hres]
          rfl
        · intro j hj
          match j with
          | 0 => exact le_of_lt hbs
          | j + 1 => exact hmax j (Nat.lt_of_succ_lt_succ hj)
        · intro j hj0 hj
          match j with
          | 0 => exact hbs
          | j + 1 => exact hfirst j (Nat.lt_of_succ_lt_succ hj0) (Nat.lt_of_succ_lt_succ hj)
    · have hsel : selLoop b color (m :: ms) best bs = selLoop b color ms best bs := by
        simp only [selLoop]
        rw [if_neg hgt]
      push_neg at hgt
      rcases ih best bs with ⟨hall, hres⟩ | ⟨i, hi, hres, hbs, hmax, hfirst⟩
      · left
        refine ⟨?_, by rw [hsel, hres]⟩
        intro m' hm'
        rcases List.mem_cons.mp hm' with rfl | h
        · exact hgt
        · exact hall m' h
      · right
        refine ⟨i + 1, Nat.succ_lt_succ hi, ?_, hbs, ?_, ?_⟩
        · rw [hsel, hres]
          rfl
        · intro j hj
          match j with
          | 0 => exact le_of_lt (lt_of_le_of_lt hgt hbs)
          | j + 1 => exact hmax j (Nat.lt_of_succ_lt_succ hj)
        · intro j hj0 hj
          match j with
          | 0 => exact lt_of_le_of_lt hgt hbs
          | j + 1 => exact hfirst j (Nat.lt_of_succ_lt_succ hj0) (Nat.lt_of_succ_lt_succ hj)

/-- C6: with at least one legal move, `select_next_play_ai` returns the
legal move of strictly highest `evaluate_move` score; on ties, the first
such move in the row-major order of `get_valid_moves` (every earlier move
scores strictly lower). -/
theorem c6_select_ai_first_argmax (b : Board) (color : Nat)
    (h : get_valid_moves b color ≠ []) :
    ∃ i : Nat, ∃ hi : i < (get_valid_moves b color).length,
      select_next_play_ai b color = some ((get_valid_moves b color).get ⟨i, hi⟩) ∧
      (∀ j : Nat, ∀ hj : j < (get_valid_moves b color).length,
        evaluate_move b ((get_valid_moves b color).get ⟨j, hj⟩).1
          ((get_valid_moves b color).get ⟨j, hj⟩).2 color ≤
        evaluate_move b ((get_valid_moves b color).get ⟨i, hi⟩).1
          ((get_valid_moves b color).get ⟨i, hi⟩).2 color) ∧
      (∀ j : Nat, j < i → ∀ hj : j < (get_valid_moves b color).length,
        evaluate_move b ((get_valid_moves b color).get ⟨j, hj⟩).1
          ((get_valid_moves b color).get ⟨j, hj⟩).2 color <
        evaluate_move b ((get_valid_moves b color).get ⟨i, hi⟩).1
          ((get_valid_moves b color).get ⟨i, hi⟩).2 color) := by
  cases hvm : get_valid_moves b color with
  | nil => exact absurd hvm h
  | cons m ms =>
    have hm0 : m ∈ get_valid_moves b color := by
      rw [hvm]
      exact List.mem_cons_self m ms
    have h0 : 0 ≤ evaluate_move b m.1 m.2 color :=
      eval_nonneg b m.1 m.2 color (valid_cell_empty b m.1 m.2 color (mem_gvm_valid b color m hm0))
    simp only [select_next_play_ai, hvm]
    rcases selLoop_spec b color (m :: ms) m (-1) with ⟨hall, _⟩ |
      ⟨i, hi, hres, _, hmax, hfirst⟩
    · have := hall m (List.mem_cons_self m ms)
      omega
    · exact ⟨i, hi, by rw [hres], hmax, hfirst⟩

/-- Witness for C6 on the fresh board: Black has legal moves, and the
theorem yields the first maximal-score move. -/
theorem c6_select_ai_first_argmax_witness :
    ∃ i : Nat, ∃ hi : i < (get_valid_moves (set_up_board 8 8) 1).length,
      select_next_play_ai (set_up_board 8 8) 1 =
        some ((get_valid_moves (set_up_board 8 8) 1).get ⟨i, hi⟩) ∧
      (∀ j : Nat, ∀ hj : j < (get_valid_moves (set_up_board 8 8) 1).length,
        evaluate_move (set_up_board 8 8) ((get_valid_moves (set_up_board 8 8) 1).get ⟨j, hj⟩).1
          ((get_valid_moves (set_up_board 8 8) 1).get ⟨j, hj⟩).2 1 ≤
        evaluate_move (set_up_board 8 8) ((get_valid_moves (set_up_board 8 8) 1).get ⟨i, hi⟩).1
          ((get_valid_moves (set_up_board 8 8) 1).get ⟨i, hi⟩).2 1) ∧
      (∀ j : Nat, j < i → ∀ hj : j < (get_valid_moves (set_up_board 8 8) 1).length,
        evaluate_move (set_up_board 8 8) ((get_valid_moves (set_up_board 8 8) 1).get ⟨j, hj⟩).1
          ((get_valid_moves (set_up_board 8 8) 1).get ⟨j, hj⟩).2 1 <
        evaluate_move (set_up_board 8 8) ((get_valid_moves (set_up_board 8 8) 1).get ⟨i, hi⟩).1
          ((get_valid_moves (set_up_board 8 8) 1).get ⟨i, hi⟩).2 1) :=
  c6_select_ai_first_argmax (set_up_board 8 8) 1 (by decide)

/-- Updating one list entry trades its predicate contribution for the new
value's. -/
lemma countP_set (p : Nat → Bool) :
    ∀ (l : List Nat) (i : Nat) (v : Nat) (hi : i < l.length),
      (l.set i v).countP p + (if p (l.get ⟨i, hi⟩) then 1 else 0) =
        l.countP p + (if p v then 1 else 0) := by
  intro l
  induction l with
  | nil =>
    intro i v hi
    exact absurd hi (by simp)
  | cons a t ih =>
    intro i v hi
    match i with
    | 0 =>
      simp only [List.set_cons_zero, List.countP_cons, List.get]
      omega
    | i + 1 =>
      simp only [List.set_cons_succ, List.countP_cons, List.get]
      have := ih i v (Nat.lt_of_succ_lt_succ hi)
      omega

/-- Updating one row trades its summand for the new row's. -/
lemma sum_map_set (f : List Nat → Nat) :
    ∀ (l : List (List Nat)) (i : Nat) (v : List Nat) (hi : i < l.length),
      ((l.set i v).map f).sum + f (l.get ⟨i, hi⟩) = (l.map f).sum + f v := by
  intro l
  induction l with
  | nil =>
    intro i v hi
    exact absurd hi (by simp)
  | cons a t ih =>
    intro i v hi
    match i with
    | 0 =>
      simp only [List.set_cons_zero, List.map_cons, List.sum_cons, List.get]
      omega
    | i + 1 =>
      simp only [List.set_cons_succ, List.map_cons, List.sum_cons, List.get]
      have := ih i v (Nat.lt_of_succ_lt_succ hi)
      omega

/-- C8: applying a legal move (as the game loops do) raises the occupied
cell count by exactly one: the Empty target becomes the mover's color and
no other cell changes. -/
theorem c8_apply_move_adds_one_piece (b : Board) (row col : Int) (color : Nat)
    (hrect : ∀ r ∈ b, r.length = rowLen b)
    (hin : inB b row col = true)
    (hv : is_valid_move b row col color = true)
    (hcol : color = 1 ∨ color = 2) :
    pieceCount (apply_move b row col color) = pieceCount b + 1 := by
  obtain ⟨hr0, hr1, hc0, hc1⟩ := (inB_iff b row col).mp hin
  have hrow : row.toNat < b.length := by omega
  have hpr : pyIdx b.length row = row.toNat := by
    unfold pyIdx
    rw [if_neg (by omega)]
  have hRget : b.getD row.toNat [] = b.get ⟨row.toNat, hrow⟩ := List.getD_eq_get b [] hrow
  have hRlen : (b.get ⟨row.toNat, hrow⟩).length = rowLen b :=
    hrect (b.get ⟨row.toNat, hrow⟩) (List.get_mem b row.toNat hrow)
  have hcolW : col.toNat < (b.get ⟨row.toNat, hrow⟩).length := by
    rw [hRlen]
    omega
  have hpc : pyIdx (b.get ⟨row.toNat, hrow⟩).length col = col.toNat := by
    unfold pyIdx
    rw [if_neg (by omega)]
  have hcell : (b.get ⟨row.toNat, hrow⟩).get ⟨col.toNat, hcolW⟩ = 0 := by
    have h0 := valid_cell_empty b row col color hv
    unfold cellAt at h0
    rw [hRget, List.getD_eq_get _ _ hcolW] at h0
    exact h0
  show pieceCount (pySet b row col color) = pieceCount b + 1
  simp only [pySet, pySetRow]
  rw [hpr, hRget, hpc]
  unfold pieceCount
  have hsum := sum_map_set (fun r => r.countP fun x => x != 0) b row.toNat
    ((b.get ⟨row.toNat, hrow⟩).set col.toNat color) hrow
  have hcount := countP_set (fun x => x != 0) (b.get ⟨row.toNat, hrow⟩) col.toNat color hcolW
  rw [hcell] at hcount
  have hpcol : ((color != 0) = true) := by
    rcases hcol with rfl | rfl <;> decide
  have hpzero : ((0 != 0) = true) = False := by decide
  rw [if_pos hpcol, if_neg (by simp)] at hcount
  omega

/-- Witness for C8 on the fresh board: Black's legal move (2,3) takes the
piece count from 4 to 5. -/
theorem c8_apply_move_adds_one_piece_witness :
    inB (set_up_board 8 8) 2 3 = true ∧
    is_valid_move (set_up_board 8 8) 2 3 1 = true ∧
    pieceCount (apply_move (set_up_board 8 8) 2 3 1) = pieceCount (set_up_board 8 8) + 1 :=
  ⟨by decide, by decide,
    c8_apply_move_adds_one_piece (set_up_board 8 8) 2 3 1 (by decide) (by decide) (by decide)
      (by decide)⟩

lemma pyIdx_natCast (L n : Nat) : pyIdx L ((n : Nat) : Int) = n := by
  unfold pyIdx
  rw [if_neg (by omega)]
  simp

lemma pyIdx_cast_sub_one (n : Nat) (h : 1 ≤ n) (L : Nat) :
    pyIdx L (((n : Nat) : Int) - 1) = n - 1 := by
  unfold pyIdx
  rw [if_neg (by omega)]
  omega

lemma getD_set_eq (l : List (List Nat)) (i : Nat) (v d : List Nat) (h : i < l.length) :
    (l.set i v).getD i d = v := by
  rw [List.getD_eq_get _ _ (by simpa using h)]
  simp

lemma getD_set_ne (l : List (List Nat)) (i j : Nat) (v d : List Nat) (h : i ≠ j) :
    (l.set i v).getD j d = l.getD j d := by
  by_cases hj : j < l.length
  · rw [List.getD_eq_get _ _ (by simpa using hj), List.getD_eq_get _ _ hj]
    simp [List.get_eq_getElem, List.getElem_set_ne h]
  · rw [List.getD_eq_default _ _ (by simpa using Nat.le_of_not_lt hj),
      List.getD_eq_default _ _ (Nat.le_of_not_lt hj)]

lemma getDN_set_eq (l : List Nat) (i : Nat) (v d : Nat) (h : i < l.length) :
    (l.set i v).getD i d = v := by
  rw [List.getD_eq_get _ _ (by simpa using h)]
  simp

lemma getDN_set_ne (l : List Nat) (i j : Nat) (v d : Nat) (h : i ≠ j) :
    (l.set i v).getD j d = l.getD j d := by
  by_cases hj : j < l.length
  · rw [List.getD_eq_get _ _ (by simpa using hj), List.getD_eq_get _ _ hj]
    simp [List.get_eq_getElem, List.getElem_set_ne h]
  · rw [List.getD_eq_default _ _ (by simpa using Nat.le_of_not_lt hj),
      List.getD_eq_default _ _ (Nat.le_of_not_lt hj)]

lemma getD_replicate_row (n i : Nat) (a d : List Nat) (h : i < n) :
    (List.replicate n a).getD i d = a := by
  rw [List.getD_eq_get _ _ (by simpa using h)]
  simp

lemma getDN_replicate_zero (W c : Nat) : (List.replicate W (0 : Nat)).getD c 0 = 0 := by
  by_cases h : c < W
  · rw [List.getD_eq_get _ _ (by simpa using h)]
    simp
  · rw [List.getD_eq_default _ _ (by simpa using Nat.le_of_not_lt h)]

lemma countP_replicate_zero (W : Nat) :
    (List.replicate W (0 : Nat)).countP (fun x => x != 0) = 0 := by
  induction W with
  | zero => simp
  | succ n ih =>
    rw [List.replicate_succ, List.countP_cons]
    simp [ih]

/-- Reading `cellAt` at natural coordinates. -/
lemma cellAt_natCast (b : Board) (r c : Nat) :
    cellAt b ((r : Nat) : Int) ((c : Nat) : Int) = (b.getD r []).getD c 0 := by
  unfold cellAt
  simp

/-- For 2 ≤ W, H the four centre writes of `set_up_board` land on four
distinct cells: the board is the zero board with row H/2 − 1 and row H/2
replaced. -/
lemma setup_eq (W H : Nat) (hW : 2 ≤ W) (hH : 2 ≤ H) :
    set_up_board W H =
      ((List.replicate H (List.replicate W 0)).set (H / 2)
          (((List.replicate W 0).set (W / 2) 2).set (W / 2 - 1) 1)).set (H / 2 - 1)
        (((List.replicate W 0).set (W / 2 - 1) 2).set (W / 2) 1) := by
  have hcr1 : 1 ≤ H / 2 := by omega
  have hcrH : H / 2 < H := Nat.div_lt_self (by omega) (by omega)
  have hcc1 : 1 ≤ W / 2 := by omega
  have hccW : W / 2 < W := Nat.div_lt_self (by omega) (by omega)
  have e1 : pySet (List.replicate H (List.replicate W 0)) ((H / 2 : Nat) : Int)
      ((W / 2 : Nat) : Int) 2 =
      (List.replicate H (List.replicate W 0)).set (H / 2) ((List.replicate W 0).set (W / 2) 2)
      := by
    simp only [pySet, pySetRow, pyIdx_natCast]
    rw [getD_replicate_row H (H / 2) (List.replicate W 0) [] hcrH]
  have e2 : pySet ((List.replicate H (List.replicate W 0)).set (H / 2)
        ((List.replicate W 0).set (W / 2) 2)) (((H / 2 : Nat) : Int) - 1)
        (((W / 2 : Nat) : Int) - 1) 2 =
      ((List.replicate H (List.replicate W 0)).set (H / 2)
        ((List.replicate W 0).set (W / 2) 2)).set (H / 2 - 1)
        ((List.replicate W 0).set (W / 2 - 1) 2) := by
    simp only [pySet, pySetRow, pyIdx_cast_sub_one (H / 2) hcr1,
      pyIdx_cast_sub_one (W / 2) hcc1]
    rw [getD_set_ne _ _ _ _ _ (by omega)]
    rw [getD_replicate_row H (H / 2 - 1) (List.replicate W 0) [] (by omega)]
  have e3 : pySet (((List.replicate H (List.replicate W 0)).set (H / 2)
        ((List.replicate W 0).set (W / 2) 2)).set (H / 2 - 1)
        ((List.replicate W 0).set (W / 2 - 1) 2)) ((H / 2 : Nat) : Int)
        (((W / 2 : Nat) : Int) - 1) 1 =
      (((List.replicate H (List.replicate W 0)).set (H / 2)
        ((List.replicate W 0).set (W / 2) 2)).set (H / 2 - 1)
        ((List.replicate W 0).set (W / 2 - 1) 2)).set (H / 2)
        (((List.replicate W 0).set (W / 2) 2).set (W / 2 - 1) 1) := by
    simp only [pySet, pySetRow, pyIdx_natCast, pyIdx_cast_sub_one (W / 2) hcc1]
    rw [getD_set_ne _ _ _ _ _ (by omega)]
    rw [getD_set_eq _ _ _ _ (by simpa using hcrH)]
  have e4 : pySet ((((List.replicate H (List.replicate W 0)).set (H / 2)
        ((List.replicate W 0).set (W / 2) 2)).set (H / 2 - 1)
        ((List.replicate W 0).set (W / 2 - 1) 2)).set (H / 2)
        (((List.replicate W 0).set (W / 2) 2).set (W / 2 - 1) 1))
        (((H / 2 : Nat) : Int) - 1) ((W / 2 : Nat) : Int) 1 =
      (((((List.replicate H (List.replicate W 0)).set (H / 2)
        ((List.replicate W 0).set (W / 2) 2)).set (H / 2 - 1)
        ((List.replicate W 0).set (W / 2 - 1) 2)).set (H / 2)
        (((List.replicate W 0).set (W / 2) 2).set (W / 2 - 1) 1)).set (H / 2 - 1)
        (((List.replicate W 0).set (W / 2 - 1) 2).set (W / 2) 1)) := by
    simp only [pySet, pySetRow, pyIdx_natCast, pyIdx_cast_sub_one (H / 2) hcr1]
    rw [getD_set_ne _ _ _ _ _ (by omega)]
    rw [getD_set_eq _ _ _ _ (by simp only [List.length_set, List.length_replicate]; omega)]
  show pySet (pySet (pySet (pySet (List.replicate H (List.replicate W 0))
      ((H / 2 : Nat) : Int) ((W / 2 : Nat) : Int) 2)
      (((H / 2 : Nat) : Int) - 1) (((W / 2 : Nat) : Int) - 1) 2)
      ((H / 2 : Nat) : Int) (((W / 2 : Nat) : Int) - 1) 1)
      (((H / 2 : Nat) : Int) - 1) ((W / 2 : Nat) : Int) 1 = _
  rw [e1, e2, e3, e4]
  rw [List.set_comm _ _ _ (by omega : H / 2 - 1 ≠ H / 2)]
  rw [List.set_set, List.set_set]

/-- C7 amended: for every width and height at least 2, `set_up_board`
yields exactly 4 occupied cells, in the centre quad, two of value 2 on one
diagonal and two of value 1 on the other, every other cell Empty.  (For
width or height 1 the claim fails: see `c7_one_by_one_board`.) -/
theorem c7_setup_board (W H : Nat) (hW : 2 ≤ W) (hH : 2 ≤ H) :
    pieceCount (set_up_board W H) = 4 ∧
    cellAt (set_up_board W H) ((H / 2 - 1 : Nat) : Int) ((W / 2 - 1 : Nat) : Int) = 2 ∧
    cellAt (set_up_board W H) ((H / 2 - 1 : Nat) : Int) ((W / 2 : Nat) : Int) = 1 ∧
    cellAt (set_up_board W H) ((H / 2 : Nat) : Int) ((W / 2 - 1 : Nat) : Int) = 1 ∧
    cellAt (set_up_board W H) ((H / 2 : Nat) : Int) ((W / 2 : Nat) : Int) = 2 ∧
    (∀ r c : Nat, r < H → c < W →
      ((r ≠ H / 2 - 1 ∧ r ≠ H / 2) ∨ (c ≠ W / 2 - 1 ∧ c ≠ W / 2)) →
      cellAt (set_up_board W H) ((r : Nat) : Int) ((c : Nat) : Int) = 0) := by
  have hcr1 : 1 ≤ H / 2 := by omega
  have hcrH : H / 2 < H := Nat.div_lt_self (by omega) (by omega)
  have hcc1 : 1 ≤ W / 2 := by omega
  have hccW : W / 2 < W := Nat.div_lt_self (by omega) (by omega)
  rw [setup_eq W H hW hH]
  have hrowC : (((List.replicate W 0).set (W / 2) 2).set (W / 2 - 1) 1).countP
      (fun x => x != 0) = 2 := by
    have h1 := countP_set (fun x => x != 0) (List.replicate W 0) (W / 2) 2 (by simpa using hccW)
    have h2 := countP_set (fun x => x != 0) ((List.replicate W 0).set (W / 2) 2) (W / 2 - 1) 1
      (by simp; omega)
    have hg1 : (List.replicate W (0 : Nat)).get ⟨W / 2, by simpa using hccW⟩ = 0 := by simp
    have hg2 : ((List.replicate W (0 : Nat)).set (W / 2) 2).get ⟨W / 2 - 1, by simp; omega⟩
        = 0 := by
      simp [List.get_eq_getElem, List.getElem_set_ne (by omega : W / 2 ≠ W / 2 - 1)]
    rw [hg1] at h1
    rw [hg2] at h2
    rw [countP_replicate_zero] at h1
    simp at h1 h2
    omega
  have hrowD : (((List.replicate W 0).set (W / 2 - 1) 2).set (W / 2) 1).countP
      (fun x => x != 0) = 2 := by
    have h1 := countP_set (fun x => x != 0) (List.replicate W 0) (W / 2 - 1) 2
      (by simp; omega)
    have h2 := countP_set (fun x => x != 0) ((List.replicate W 0).set (W / 2 - 1) 2) (W / 2) 1
      (by simpa using hccW)
    have hg1 : (List.replicate W (0 : Nat)).get ⟨W / 2 - 1, by simp; omega⟩ = 0 := by simp
    have hg2 : ((List.replicate W (0 : Nat)).set (W / 2 - 1) 2).get
        ⟨W / 2, by simpa using hccW⟩ = 0 := by
      simp [List.get_eq_getElem, List.getElem_set_ne (by omega : W / 2 - 1 ≠ W / 2)]
    rw [hg1] at h1
    rw [hg2] at h2
    rw [countP_replicate_zero] at h1
    simp at h1 h2
    omega
  refine ⟨?_, ?_, ?_, ?_, ?_, ?_⟩
  · unfold pieceCount
    have hs1 := sum_map_set (fun r => r.countP fun x => x != 0)
      (List.replicate H (List.replicate W 0)) (H / 2)
      (((List.replicate W 0).set (W / 2) 2).set (W / 2 - 1) 1) (by simpa using hcrH)
    have hs2 := sum_map_set (fun r => r.countP fun x => x != 0)
      ((List.replicate H (List.replicate W 0)).set (H / 2)
        (((List.replicate W 0).set (W / 2) 2).set (W / 2 - 1) 1)) (H / 2 - 1)
      (((List.replicate W 0).set (W / 2 - 1) 2).set (W / 2) 1) (by simp; omega)
    have hg1 : (List.replicate H (List.replicate W (0 : Nat))).get
        ⟨H / 2, by simpa using hcrH⟩ = List.replicate W 0 := by simp
    have hg2 : ((List.replicate H (List.replicate W (0 : Nat))).set (H / 2)
        (((List.replicate W 0).set (W / 2) 2).set (W / 2 - 1) 1)).get
        ⟨H / 2 - 1, by simp; omega⟩ = List.replicate W 0 := by
      simp [List.get_eq_getElem, List.getElem_set_ne (by omega : H / 2 ≠ H / 2 - 1)]
    rw [hg1] at hs1
    rw [hg2] at hs2
    simp only [List.map_replicate] at hs1
    rw [countP_replicate_zero] at hs1 hs2
    rw [hrowC] at hs1
    rw [hrowD] at hs2
    rw [List.sum_const_nat] at hs1
    omega
  · rw [cellAt_natCast]
    rw [getD_set_eq _ _ _ _ (by simp; omega)]
    rw [getDN_set_ne _ _ _ _ _ (by omega)]
    rw [getDN_set_eq _ _ _ _ (by simp; omega)]
  · rw [cellAt_natCast]
    rw [getD_set_eq _ _ _ _ (by simp; omega)]
    rw [getDN_set_eq _ _ _ _ (by simp; omega)]
  · rw [cellAt_natCast]
    rw [getD_set_ne _ _ _ _ _ (by omega)]
    rw [getD_set_eq _ _ _ _ (by simpa using hcrH)]
    rw [getDN_set_eq _ _ _ _ (by simp; omega)]
  · rw [cellAt_natCast]
    rw [getD_set_ne _ _ _ _ _ (by omega)]
    rw [getD_set_eq _ _ _ _ (by simpa using hcrH)]
    rw [getDN_set_ne _ _ _ _ _ (by omega)]
    rw [getDN_set_eq _ _ _ _ (by simpa using hccW)]
  · intro r c hr hc hout
    rw [cellAt_natCast]
    rcases hout with ⟨h1, h2⟩ | ⟨h1, h2⟩
    · rw [getD_set_ne _ _ _ _ _ (Ne.symm h1)]
      rw [getD_set_ne _ _ _ _ _ (Ne.symm h2)]
      rw [getD_replicate_row H r (List.replicate W 0) [] hr]
      exact getDN_replicate_zero W c
    · by_cases hrd : r = H / 2 - 1
      · subst hrd
        rw [getD_set_eq _ _ _ _ (by simp; omega)]
        rw [getDN_set_ne _ _ _ _ _ (Ne.symm h2)]
        rw [getDN_set_ne _ _ _ _ _ (Ne.symm h1)]
        exact getDN_replicate_zero W c
      · by_cases hrc : r = H / 2
        · subst hrc
          rw [getD_set_ne _ _ _ _ _ (by omega)]
          rw [getD_set_eq _ _ _ _ (by simpa using hcrH)]
          rw [getDN_set_ne _ _ _ _ _ (Ne.symm h1)]
          rw [getDN_set_ne _ _ _ _ _ (Ne.symm h2)]
          exact getDN_replicate_zero W c
        · rw [getD_set_ne _ _ _ _ _ (by omega)]
          rw [getD_set_ne _ _ _ _ _ (by omega)]
          rw [getD_replicate_row H r (List.replicate W 0) [] hr]
          exact getDN_replicate_zero W c

/-- Witness for the amended C7 at width = height = 8. -/
theorem c7_setup_board_witness :
    pieceCount (set_up_board 8 8) = 4 ∧
    cellAt (set_up_board 8 8) ((8 / 2 - 1 : Nat) : Int) ((8 / 2 - 1 : Nat) : Int) = 2 ∧
    cellAt (set_up_board 8 8) ((8 / 2 - 1 : Nat) : Int) ((8 / 2 : Nat) : Int) = 1 ∧
    cellAt (set_up_board 8 8) ((8 / 2 : Nat) : Int) ((8 / 2 - 1 : Nat) : Int) = 1 ∧
    cellAt (set_up_board 8 8) ((8 / 2 : Nat) : Int) ((8 / 2 : Nat) : Int) = 2 ∧
    (∀ r c : Nat, r < 8 → c < 8 →
      ((r ≠ 8 / 2 - 1 ∧ r ≠ 8 / 2) ∨ (c ≠ 8 / 2 - 1 ∧ c ≠ 8 / 2)) →
      cellAt (set_up_board 8 8) ((r : Nat) : Int) ((c : Nat) : Int) = 0) :=
  c7_setup_board 8 8 (by decide) (by decide)

/-- The selection loop returns the running best or a list element. -/
lemma selLoop_mem (b : Board) (color : Nat) :
    ∀ (l : List (Int × Int)) (best : Int × Int) (bs : Int),
      selLoop b color l best bs = best ∨ selLoop b color l best bs ∈ l := by
  intro l
  induction l with
  | nil =>
    intro best bs
    left
    simp [selLoop]
  | cons m ms ih =>
    intro best bs
    by_cases hgt : evaluate_move b m.1 m.2 color > bs
    · have hsel : selLoop b color (m :: ms) best bs =
          selLoop b color ms m (evaluate_move b m.1 m.2 color) := by
        simp only [selLoop]
        rw [if_pos hgt]
      rcases ih m (evaluate_move b m.1 m.2 color) with h | h
      · right
        rw [hsel, h]
        exact List.mem_cons_self m ms
      · right
        rw [hsel]
        exact List.mem_cons_of_mem m h
    · have hsel : selLoop b color (m :: ms) best bs = selLoop b color ms best bs := by
        simp only [selLoop]
        rw [if_neg hgt]
      rcases ih best bs with h | h
      · left
        rw [hsel, h]
      · right
        rw [hsel]
        exact List.mem_cons_of_mem m h

/-- C9: both move selectors fail (raise, modelled by `none`) exactly when
`get_valid_moves` is empty, and on a non-empty move list each returns one
of the legal moves, never a silent default. -/
theorem c9_selectors_fail_iff_no_moves (b : Board) (color : Nat) (k : Nat) :
    (select_next_play_random b color k = none ↔ get_valid_moves b color = []) ∧
    (select_next_play_ai b color = none ↔ get_valid_moves b color = []) ∧
    (∀ m : Int × Int, select_next_play_random b color k = some m →
      m ∈ get_valid_moves b color) ∧
    (∀ m : Int × Int, select_next_play_ai b color = some m →
      m ∈ get_valid_moves b color) := by
  refine ⟨?_, ?_, ?_, ?_⟩
  · simp only [select_next_play_random]
    cases hvm : get_valid_moves b color with
    | nil => simp
    | cons m ms =>
      rw [List.get?_eq_none]
      simp only [List.length_cons]
      constructor
      · intro h
        exact absurd h (by simp [Nat.mod_lt k (Nat.succ_pos ms.length)])
      · intro h
        exact absurd h (by simp)
  · simp only [select_next_play_ai]
    cases hvm : get_valid_moves b color with
    | nil => simp
    | cons m ms => simp
  · intro m hm
    simp only [select_next_play_random] at hm
    exact List.get?_mem hm
  · intro m hm
    simp only [select_next_play_ai] at hm
    obtain hvm | ⟨m0, ms, hvm⟩ :
        get_valid_moves b color = [] ∨ ∃ m0 ms, get_valid_moves b color = m0 :: ms := by
      cases get_valid_moves b color with
      | nil => exact Or.inl rfl
      | cons a t => exact Or.inr ⟨a, t, rfl⟩
    · rw [hvm] at hm
      exact Option.noConfusion hm
    · rw [hvm] at hm
      rw [hvm]
      have hm' : selLoop b color (m0 :: ms) m0 (-1) = m := Option.some.inj hm
      rcases selLoop_mem b color (m0 :: ms) m0 (-1) with h | h
      · rw [hm'] at h
        rw [← h]
        exact List.mem_cons_self m ms
      · rw [hm'] at h
        exact h

lemma length_mapS (b : Board) : (mapS b).length = b.length := by
  simp [mapS]

lemma rowLenS_mapS (b : Board) : rowLenS (mapS b) = rowLen b := by
  cases b with
  | nil => rfl
  | cons r t => simp [mapS, rowLenS, rowLen]

lemma inBS_mapS (b : Board) (r c : Int) : inBS (mapS b) r c = inB b r c := by
  unfold inBS inB
  rw [length_mapS, rowLenS_mapS]

lemma fuelForS_mapS (b : Board) : fuelForS (mapS b) = fuelFor b := by
  unfold fuelForS fuelFor
  rw [length_mapS, rowLenS_mapS]

lemma getD_map_toS : ∀ (l : List Nat) (i : Nat),
    (l.map toS).getD i SVal.intZero = toS (l.getD i 0) := by
  intro l
  induction l with
  | nil =>
    intro i
    simp [toS]
  | cons a t ih =>
    intro i
    cases i with
    | zero => simp
    | succ j => simpa using ih j

lemma getD_map_rows : ∀ (b : Board) (i : Nat), (mapS b).getD i [] = (b.getD i []).map toS := by
  intro b
  induction b with
  | nil =>
    intro i
    simp [mapS]
  | cons r t ih =>
    intro i
    cases i with
    | zero => simp [mapS]
    | succ j => simpa [mapS] using ih j

lemma cellAtS_mapS (b : Board) (r c : Int) : cellAtS (mapS b) r c = toS (cellAt b r c) := by
  unfold cellAtS cellAt
  rw [getD_map_rows, getD_map_toS]

lemma toS_eq_iff (x y : Nat) (hx : x ≤ 2) (hy : y ≤ 2) : toS x = toS y ↔ x = y := by
  interval_cases x <;> interval_cases y <;> decide

lemma opponent_le_two (color : Nat) : opponent color ≤ 2 := by
  unfold opponent
  split <;> omega

lemma toS_opponent (color : Nat) (hc : color = 1 ∨ color = 2) :
    opponentS (toS color) = toS (opponent color) := by
  rcases hc with rfl | rfl <;> decide

lemma cellAt_le_two (b : Board) (hb : ∀ row ∈ b, ∀ x ∈ row, x ≤ 2) (r c : Int) :
    cellAt b r c ≤ 2 := by
  unfold cellAt
  by_cases hr : r.toNat < b.length
  · rw [List.getD_eq_get _ _ hr]
    by_cases hc2 : c.toNat < (b.get ⟨r.toNat, hr⟩).length
    · rw [List.getD_eq_get _ _ hc2]
      exact hb _ (List.get_mem b r.toNat hr) _ (List.get_mem _ c.toNat hc2)
    · rw [List.getD_eq_default _ _ (Nat.le_of_not_lt hc2)]
      omega
  · rw [List.getD_eq_default _ _ (Nat.le_of_not_lt hr)]
    simp

lemma anyB_congr (l : List (Int × Int)) (p q : Int × Int → Bool)
    (h : ∀ a ∈ l, p a = q a) : l.any p = l.any q := by
  induction l with
  | nil => rfl
  | cons a t ih =>
    simp only [List.any_cons]
    rw [h a (List.mem_cons_self a t),
      ih fun x hx => h x (List.mem_cons_of_mem a hx)]

lemma flatMap_congr (l : List Nat) (p q : Nat → List (Int × Int))
    (h : ∀ a ∈ l, p a = q a) : l.flatMap p = l.flatMap q := by
  induction l with
  | nil => rfl
  | cons a t ih =>
    simp only [List.flatMap_cons]
    rw [h a (List.mem_cons_self a t),
      ih fun x hx => h x (List.mem_cons_of_mem a hx)]

lemma scanDirS_mapS (b : Board) (color : Nat) (hb : ∀ row ∈ b, ∀ x ∈ row, x ≤ 2)
    (hc : color = 1 ∨ color = 2) (dr dc : Int) :
    ∀ (fuel : Nat) (r c : Int),
      scanDirS (mapS b) (toS color) dr dc r c fuel = scanDir b color dr dc r c fuel := by
  intro fuel
  induction fuel with
  | zero =>
    intro r c
    rfl
  | succ f ih =>
    intro r c
    simp only [scanDirS, scanDir]
    rw [inBS_mapS]
    by_cases h1 : inB b r c = true
    · rw [if_pos h1, if_pos h1]
      have hcell := cellAt_le_two b hb r c
      by_cases h2 : cellAt b r c = 0
      · have h2' : cellAtS (mapS b) r c = SVal.intZero := by
          rw [cellAtS_mapS, h2]
          rfl
        rw [if_pos h2, if_pos h2']
      · have h2' : ¬cellAtS (mapS b) r c = SVal.intZero := by
          rw [cellAtS_mapS]
          intro hcon
          exact h2 ((toS_eq_iff (cellAt b r c) 0 hcell (by omega)).mp hcon)
        rw [if_neg h2, if_neg h2']
        by_cases h3 : cellAt b r c = color
        · have h3' : cellAtS (mapS b) r c = toS color := by
            rw [cellAtS_mapS, h3]
          rw [if_pos h3, if_pos h3']
        · have h3' : ¬cellAtS (mapS b) r c = toS color := by
            rw [cellAtS_mapS]
            intro hcon
            exact h3 ((toS_eq_iff (cellAt b r c) color hcell (by omega)).mp hcon)
          rw [if_neg h3, if_neg h3']
          exact ih (r + dr) (c + dc)
    · rw [if_neg h1, if_neg h1]

lemma cfLoopS_mapS (b : Board) (opp : Nat) (hopp : opp ≤ 2)
    (hb : ∀ row ∈ b, ∀ x ∈ row, x ≤ 2) (dr dc : Int) :
    ∀ (fuel : Nat) (r c : Int) (flips : Nat),
      cfLoopS (mapS b) (toS opp) dr dc r c flips fuel = cfLoop b opp dr dc r c flips fuel := by
  intro fuel
  induction fuel with
  | zero =>
    intro r c flips
    rfl
  | succ f ih =>
    intro r c flips
    simp only [cfLoopS, cfLoop]
    have hcond : (inBS (mapS b) r c && decide (cellAtS (mapS b) r c = toS opp)) =
        (inB b r c && decide (cellAt b r c = opp)) := by
      rw [inBS_mapS, cellAtS_mapS,
        decide_eq_decide.mpr (toS_eq_iff (cellAt b r c) opp (cellAt_le_two b hb r c) hopp)]
    rw [hcond]
    by_cases h1 : (inB b r c && decide (cellAt b r c = opp)) = true
    · rw [if_pos h1, if_pos h1]
      exact ih (r + dr) (c + dc) (flips + 1)
    · rw [if_neg h1, if_neg h1]

lemma count_flipsS_mapS (b : Board) (color : Nat) (hb : ∀ row ∈ b, ∀ x ∈ row, x ≤ 2)
    (hc : color = 1 ∨ color = 2) (row col dr dc : Int) :
    count_flipsS (mapS b) row col (toS color) dr dc = count_flips b row col color dr dc := by
  unfold count_flipsS count_flips
  rw [toS_opponent color hc, fuelForS_mapS,
    cfLoopS_mapS b (opponent color) (opponent_le_two color) hb dr dc (fuelFor b)
      (row + dr) (col + dc) 0]
  have hdec : ∀ r c : Int,
      decide (cellAtS (mapS b) r c = toS color) = decide (cellAt b r c = color) := by
    intro r c
    rw [cellAtS_mapS,
      decide_eq_decide.mpr (toS_eq_iff _ color (cellAt_le_two b hb r c) (by omega))]
  simp only [inBS_mapS, hdec]

lemma evaluate_moveS_mapS (b : Board) (color : Nat) (hb : ∀ row ∈ b, ∀ x ∈ row, x ≤ 2)
    (hc : color = 1 ∨ color = 2) (row col : Int) :
    evaluate_moveS (mapS b) row col (toS color) = evaluate_move b row col color := by
  unfold evaluate_moveS evaluate_move
  have hcell := cellAt_le_two b hb row col
  have hifc : (cellAtS (mapS b) row col ≠ SVal.intZero) ↔ (cellAt b row col ≠ 0) := by
    rw [cellAtS_mapS]
    constructor
    · intro h hcon
      apply h
      rw [hcon]
      rfl
    · intro h hcon
      exact h ((toS_eq_iff (cellAt b row col) 0 hcell (by omega)).mp hcon)
  by_cases h : cellAt b row col ≠ 0
  · rw [if_pos h, if_pos (hifc.mpr h)]
  · rw [if_neg h, if_neg (fun hcon => h (hifc.mp hcon))]
    have hmap : (dirs.map fun d => count_flipsS (mapS b) row col (toS color) d.1 d.2) =
        dirs.map fun d => count_flips b row col color d.1 d.2 :=
      List.map_eq_map_iff.mpr fun d _ => count_flipsS_mapS b color hb hc row col d.1 d.2
    rw [hmap]

lemma is_valid_moveS_mapS (b : Board) (color : Nat) (hb : ∀ row ∈ b, ∀ x ∈ row, x ≤ 2)
    (hc : color = 1 ∨ color = 2) (row col : Int) :
    is_valid_moveS (mapS b) row col (toS color) = is_valid_move b row col color := by
  unfold is_valid_moveS is_valid_move
  have hcell := cellAt_le_two b hb row col
  have hifc : (cellAtS (mapS b) row col ≠ SVal.intZero) ↔ (cellAt b row col ≠ 0) := by
    rw [cellAtS_mapS]
    constructor
    · intro h hcon
      apply h
      rw [hcon]
      rfl
    · intro h hcon
      exact h ((toS_eq_iff (cellAt b row col) 0 hcell (by omega)).mp hcon)
  by_cases h : cellAt b row col ≠ 0
  · rw [if_pos h, if_pos (hifc.mpr h)]
  · rw [if_neg h, if_neg (fun hcon => h (hifc.mp hcon))]
    have hopp : hasOppNeighborS (mapS b) row col (toS color) =
        hasOppNeighbor b row col color := by
      unfold hasOppNeighborS hasOppNeighbor
      apply anyB_congr
      intro d _
      rw [inBS_mapS, cellAtS_mapS, toS_opponent color hc,
        decide_eq_decide.mpr (toS_eq_iff _ (opponent color)
          (cellAt_le_two b hb _ _) (opponent_le_two color))]
    rw [hopp]
    by_cases h2 : hasOppNeighbor b row col color = true
    · rw [if_pos h2, if_pos h2]
      apply anyB_congr
      intro d _
      rw [fuelForS_mapS]
      exact scanDirS_mapS b color hb hc d.1 d.2 (fuelFor b) (row + d.1) (col + d.2)
    · rw [if_neg h2, if_neg h2]

lemma get_valid_movesS_mapS (b : Board) (color : Nat) (hb : ∀ row ∈ b, ∀ x ∈ row, x ≤ 2)
    (hc : color = 1 ∨ color = 2) :
    get_valid_movesS (mapS b) (toS color) = get_valid_moves b color := by
  unfold get_valid_movesS get_valid_moves
  rw [length_mapS, rowLenS_mapS]
  apply flatMap_congr
  intro r _
  apply flatMap_congr
  intro c _
  rw [is_valid_moveS_mapS b color hb hc (r : Int) (c : Int)]

lemma selLoopS_mapS (b : Board) (color : Nat) (hb : ∀ row ∈ b, ∀ x ∈ row, x ≤ 2)
    (hc : color = 1 ∨ color = 2) :
    ∀ (l : List (Int × Int)) (best : Int × Int) (bs : Int),
      selLoopS (mapS b) (toS color) l best bs = selLoop b color l best bs := by
  intro l
  induction l with
  | nil =>
    intro best bs
    rfl
  | cons m ms ih =>
    intro best bs
    simp only [selLoopS, selLoop]
    rw [evaluate_moveS_mapS b color hb hc m.1 m.2]
    by_cases h : evaluate_move b m.1 m.2 color > bs
    · rw [if_pos h, if_pos h]
      exact ih m (evaluate_move b m.1 m.2 color)
    · rw [if_neg h, if_neg h]
      exact ih best bs

/-- C10: on boards over the cell values {0, 1, 2} and colors 1 (black)
and 2 (white), every rule and selector operation of src/othello.py agrees
with its src/tempCodeRunnerFile.py counterpart applied to the board and
color translated by 0 ↦ 0, 1 ↦ "black", 2 ↦ "white". -/
theorem c10_variants_equivalent (b : Board) (color : Nat) (row col dr dc : Int)
    (hb : ∀ r ∈ b, ∀ x ∈ r, x ≤ 2) (hc : color = 1 ∨ color = 2) :
    is_valid_moveS (mapS b) row col (toS color) = is_valid_move b row col color ∧
    count_flipsS (mapS b) row col (toS color) dr dc = count_flips b row col color dr dc ∧
    evaluate_moveS (mapS b) row col (toS color) = evaluate_move b row col color ∧
    get_valid_movesS (mapS b) (toS color) = get_valid_moves b color ∧
    select_next_play_aiS (mapS b) (toS color) = select_next_play_ai b color := by
  refine ⟨is_valid_moveS_mapS b color hb hc row col,
    count_flipsS_mapS b color hb hc row col dr dc,
    evaluate_moveS_mapS b color hb hc row col, get_valid_movesS_mapS b color hb hc, ?_⟩
  unfold select_next_play_aiS select_next_play_ai
  rw [get_valid_movesS_mapS b color hb hc]
  cases get_valid_moves b color with
  | nil => rfl
  | cons m ms =>
    exact congrArg some (selLoopS_mapS b color hb hc (m :: ms) m (-1))

/-- Witness for C10 on the fresh 8×8 board at Black's move (2,3),
direction south. -/
theorem c10_variants_equivalent_witness :
    is_valid_moveS (mapS (set_up_board 8 8)) 2 3 (toS 1) =
      is_valid_move (set_up_board 8 8) 2 3 1 ∧
    count_flipsS (mapS (set_up_board 8 8)) 2 3 (toS 1) 1 0 =
      count_flips (set_up_board 8 8) 2 3 1 1 0 ∧
    evaluate_moveS (mapS (set_up_board 8 8)) 2 3 (toS 1) =
      evaluate_move (set_up_board 8 8) 2 3 1 ∧
    get_valid_movesS (mapS (set_up_board 8 8)) (toS 1) =
      get_valid_moves (set_up_board 8 8) 1 ∧
    select_next_play_aiS (mapS (set_up_board 8 8)) (toS 1) =
      select_next_play_ai (set_up_board 8 8) 1 :=
  c10_variants_equivalent (set_up_board 8 8) 1 2 3 1 0 (by decide) (by decide)

/-- C1: refuted on the code.  On `cexBoard`, Black's move at the empty
in-bounds cell (0,0) is accepted by `is_valid_move` although every one of
the eight directions yields an empty opposite-colored run (`count_flips`
is 0 in all eight directions): the line scan accepts a same-colored cell
immediately adjacent, against the stated sandwich rule. -/
theorem c1_is_valid_move_accepts_flipless_move :
    is_valid_move cexBoard 0 0 1 = true ∧
    (dirs.map fun d => count_flips cexBoard 0 0 1 d.1 d.2) = [0, 0, 0, 0, 0, 0, 0, 0] := by
  decide

/-- C2: refuted on the code.  Black's move at (2,3) on the fresh 8×8 board
is legal, but the game loops apply a move as `board[row][col] = color`
only: the target (2,3) becomes Black while the sandwiched White piece at
(3,3) stays White — no piece is ever flipped. -/
theorem c2_apply_move_flips_nothing :
    is_valid_move (set_up_board 8 8) 2 3 1 = true ∧
    cellAt (apply_move (set_up_board 8 8) 2 3 1) 2 3 = 1 ∧
    cellAt (apply_move (set_up_board 8 8) 2 3 1) 3 3 = 2 := by
  decide

/-- C3: refuted on the code.  On the fresh 8×8 board, `get_valid_moves`
for Black returns 8 moves, not the 4 claimed: the extra moves (2,4),
(3,5), (4,2), (5,3) are accepted by the flawed line scan although they
flip nothing. -/
theorem c3_fresh_board_valid_moves :
    get_valid_moves (set_up_board 8 8) 1 =
      [(2, 3), (2, 4), (3, 2), (3, 5), (4, 2), (4, 5), (5, 3), (5, 4)] := by
  decide

/-- C4 counterexample: `is_valid_move` and `evaluate_move` disagree on the
empty in-bounds cell (0,0) of `cexBoard`: the move is accepted as valid
yet its evaluation is not positive. -/
theorem c4_valid_but_zero_score :
    inB cexBoard 0 0 = true ∧ cellAt cexBoard 0 0 = 0 ∧
    is_valid_move cexBoard 0 0 1 = true ∧ ¬ evaluate_move cexBoard 0 0 1 > 0 := by
  decide

/-- C7 counterexample: for width = height = 1, `set_up_board` leaves a
single occupied cell, not 4 (the four centre writes all land on the same
cell through Python's negative-index wrap-around). -/
theorem c7_one_by_one_board :
    pieceCount (set_up_board 1 1) = 1 ∧ set_up_board 1 1 = [[1]] := by
  decide

end Othello
